import Mathlib

/-!
# Verification of the billing-period segmentation of `home_financial_tools`

This file gives a shallow embedding of the core of the repository
`yzard/home_finanical_tools`:

* the week/rate segmentation loop inlined in `generate_invoice`
  (`src/home_financial_tools/server/router.py`, lines 243-332),
* its duplicate inlined in `_generate_invoice_pdf` (same file, lines 510-580),
* the itemized table and total computation of
  `_add_itemized_description_table` and the text content emitted by
  `generate_pdf_to_fp` (`src/home_financial_tools/pdf/invoice.py`).

Modelling conventions:

* Calendar dates are modelled as natural numbers counting days from a fixed
  Monday epoch, so that Python's `date.weekday()` (Monday = 0 ... Sunday = 6)
  becomes `d % 7`, `date + timedelta(days=k)` becomes `d + k`, and date
  comparison becomes `≤` on `ℕ`.  The source code only uses dates through
  ordering, day arithmetic, `weekday()`, and equality of their
  `strftime("%Y-%m-%d")` renderings (which is injective on dates), so this
  is a faithful isomorphic model.
* Python `float` hours and rates are modelled as `ℚ`; the loop only adds
  them, multiplies them, and compares them for equality.
* The Python dict `entry_map = {e.date: e for e in sorted_entries}` keyed by
  date string is modelled by `entryMap`: for duplicate dates the dict keeps
  the last inserted value, which (Python's sort being stable) is the last
  entry with that date in the original list order.
-/

/-- A daily time entry, as in the `TimeEntry` model of `router.py`
(the `hours_inputted` / `rate_inputted` flags play no role in invoice
generation and are omitted). -/
structure TimeEntry where
  date : ℕ
  hours : ℚ
  hourly_rate : ℚ
deriving DecidableEq, Repr

/-- A line item of the invoice, as in the `WeekBill` dataclass of
`pdf/invoice.py`. -/
structure WeekBill where
  hour_rate : ℚ
  quantity : ℚ
  start_date : ℕ
  end_date : ℕ
deriving DecidableEq, Repr

/-- The open segment state of the inner loop of `generate_invoice`:
`segment_rate`, `segment_hours`, `segment_start_dt`, `segment_end_dt`.
In the source these are four variables with `segment_rate is None` marking
the absence of a segment; here an absent segment is `(none : Option Seg)`. -/
structure Seg where
  rate : ℚ
  hours : ℚ
  seg_start : ℕ
  seg_end : ℕ
deriving DecidableEq, Repr

/-- Closing a segment into a `WeekBill`, as in the
`bills.append(WeekBill(hour_rate=segment_rate, quantity=segment_hours,
start_date=segment_start_dt, end_date=segment_end_dt))` calls. -/
def Seg.close (s : Seg) : WeekBill :=
  ⟨s.rate, s.hours, s.seg_start, s.seg_end⟩

/-- `entry_map = {e.date: e for e in sorted_entries}` of `router.py` line 246,
as a lookup function: the dict maps a date to the **last** entry with that
date in sorted order; since Python's `sorted` is stable this is the last
entry with that date in the original list. -/
def entryMap (es : List TimeEntry) (d : ℕ) : Option TimeEntry :=
  (es.filter (fun e => e.date == d)).getLast?

/-- `sorted_entries[0]`: the first entry of the input in date-sorted order.
Python's sort is stable, so among entries with the minimal date the earliest
in the original list wins. -/
def firstSortedEntry : List TimeEntry → Option TimeEntry
  | [] => none
  | e :: es =>
    match firstSortedEntry es with
    | none => some e
    | some m => if e.date ≤ m.date then some e else some m

/-- `default_rate = sorted_entries[0].hourly_rate if sorted_entries else 0.0`
(`router.py` line 328). -/
def defaultRate (es : List TimeEntry) : ℚ :=
  ((firstSortedEntry es).map (·.hourly_rate)).getD 0

/-- The list of days `[a, a+1, ..., b]` (empty if `b < a`): the iteration
space of the inner `while walk_dt <= week_end_dt` loop. -/
def daysFromTo (a b : ℕ) : List ℕ :=
  (List.range (b + 1 - a)).map (a + ·)

/-- The inner day walk of `generate_invoice` (`router.py` lines 265-316):
one step per day `d`, carrying the accumulated `bills` and the optional open
segment.  The four branches are exactly the source's
`if date_str in entry_map` / `if segment_rate is None` /
`elif entry.hourly_rate == segment_rate` / `else`, and the gap-day branch. -/
def walkDays (em : ℕ → Option TimeEntry) :
    List ℕ → List WeekBill → Option Seg → List WeekBill × Option Seg
  | [], bills, seg => (bills, seg)
  | d :: ds, bills, seg =>
    match em d, seg with
    | some e, none =>
      walkDays em ds bills (some ⟨e.hourly_rate, e.hours, d, d⟩)
    | some e, some s =>
      if e.hourly_rate = s.rate then
        walkDays em ds bills (some ⟨s.rate, s.hours + e.hours, s.seg_start, d⟩)
      else
        walkDays em ds (bills ++ [s.close]) (some ⟨e.hourly_rate, e.hours, d, d⟩)
    | none, none => walkDays em ds bills none
    | none, some s => walkDays em ds (bills ++ [s.close]) none

/-- One iteration of the outer week loop body (`router.py` lines 258-329):
walk the days `cursor .. weekEnd`, then close the final open segment if any,
`elif current_dt <= week_end_dt` append the zero-hour `WeekBill` at the
default rate.  Note the source's condition is only that no segment is open
at the end of the week (despite its comment saying "Week had no entries at
all"). -/
def processWeek (em : ℕ → Option TimeEntry) (dr : ℚ) (cursor weekEnd : ℕ) :
    List WeekBill :=
  match walkDays em (daysFromTo cursor weekEnd) [] none with
  | (bills, some s) => bills ++ [s.close]
  | (bills, none) =>
    if cursor ≤ weekEnd then bills ++ [⟨dr, 0, cursor, weekEnd⟩] else bills

/-- The outer `while current_dt <= end_dt` loop of `generate_invoice`
(`router.py` lines 248-332), with
`week_end = min end (cursor + (6 - cursor % 7))` from
`days_to_sunday = 6 - current_dt.weekday()` and the clamp to `end_dt`.
The loop is embedded with explicit fuel; each iteration advances the cursor
past the week end, so `end + 1 - start` units of fuel always suffice. -/
def segmentWeeks (em : ℕ → Option TimeEntry) (dr : ℚ) :
    ℕ → ℕ → ℕ → List WeekBill
  | 0, _, _ => []
  | fuel + 1, cursor, endDt =>
    if cursor ≤ endDt then
      processWeek em dr cursor (min endDt (cursor + (6 - cursor % 7))) ++
        segmentWeeks em dr fuel (min endDt (cursor + (6 - cursor % 7)) + 1) endDt
    else []

/-- The complete segmentation of `generate_invoice` (`router.py` lines
243-332): from the requested range and the raw entry list to the ordered
`bills` list. -/
def segmentBills (startDt endDt : ℕ) (es : List TimeEntry) : List WeekBill :=
  segmentWeeks (entryMap es) (defaultRate es) (endDt + 1 - startDt) startDt endDt

/-- The cursor/week-end pairs visited by the outer loop of
`generate_invoice`, with the same fuel discipline as `segmentWeeks`. -/
def walkWeeks : ℕ → ℕ → ℕ → List (ℕ × ℕ)
  | 0, _, _ => []
  | fuel + 1, cursor, endDt =>
    if cursor ≤ endDt then
      (cursor, min endDt (cursor + (6 - cursor % 7))) ::
        walkWeeks fuel (min endDt (cursor + (6 - cursor % 7)) + 1) endDt
    else []

/-- The error exits of the `generate_invoice` route relevant to invoice
generation: `HTTPException(status_code=400, detail="No time entries
provided")` (line 235) and `HTTPException(status_code=400, detail="No
billable hours found in specified range")` (line 335). -/
inductive GenError where
  | noTimeEntries
  | noBillableHours
deriving DecidableEq, Repr

/-- The control flow of `generate_invoice` around the segmentation
(`router.py` lines 232-341): reject an empty entry list, segment, reject an
empty bill list; otherwise the bills are handed to the PDF generation.
An `Except.error` models the raised `HTTPException`: nothing is rendered and
no partial output escapes. -/
def generate_invoice (startDt endDt : ℕ) (es : List TimeEntry) :
    Except GenError (List WeekBill) :=
  if es.isEmpty then .error .noTimeEntries
  else
    let bills := segmentBills startDt endDt es
    if bills.isEmpty then .error .noBillableHours
    else .ok bills

/-! ## The duplicated segmentation inlined in `_generate_invoice_pdf`

`router.py` lines 506-580 repeat the segmentation of `generate_invoice`
verbatim, with the entries as plain dicts (`entry["hourly_rate"]`,
`entry["hours"]`, `entry["date"]`) instead of pydantic models.  The
following definitions embed that second copy, mirroring its lines the same
way the `walkDays`/`processWeek`/`segmentWeeks`/`segmentBills` family
mirrors lines 243-332. -/

/-- `entry_map = {e["date"]: e for e in sorted_entries}` (`router.py` line 511). -/
def entryMapPdf (es : List TimeEntry) (d : ℕ) : Option TimeEntry :=
  (es.filter (fun e => e.date == d)).getLast?

/-- `sorted_entries[0]` of `_generate_invoice_pdf` (line 507). -/
def firstSortedEntryPdf : List TimeEntry → Option TimeEntry
  | [] => none
  | e :: es =>
    match firstSortedEntryPdf es with
    | none => some e
    | some m => if e.date ≤ m.date then some e else some m

/-- `default_rate = sorted_entries[0]["hourly_rate"] if sorted_entries else 0.0`
(`router.py` line 577). -/
def defaultRatePdf (es : List TimeEntry) : ℚ :=
  ((firstSortedEntryPdf es).map (·.hourly_rate)).getD 0

/-- The inner day walk of `_generate_invoice_pdf` (`router.py` lines 525-565). -/
def walkDaysPdf (em : ℕ → Option TimeEntry) :
    List ℕ → List WeekBill → Option Seg → List WeekBill × Option Seg
  | [], bills, seg => (bills, seg)
  | d :: ds, bills, seg =>
    match em d, seg with
    | some e, none =>
      walkDaysPdf em ds bills (some ⟨e.hourly_rate, e.hours, d, d⟩)
    | some e, some s =>
      if e.hourly_rate = s.rate then
        walkDaysPdf em ds bills (some ⟨s.rate, s.hours + e.hours, s.seg_start, d⟩)
      else
        walkDaysPdf em ds (bills ++ [s.close]) (some ⟨e.hourly_rate, e.hours, d, d⟩)
    | none, none => walkDaysPdf em ds bills none
    | none, some s => walkDaysPdf em ds (bills ++ [s.close]) none

/-- One week-loop iteration of `_generate_invoice_pdf`
(`router.py` lines 515-578). -/
def processWeekPdf (em : ℕ → Option TimeEntry) (dr : ℚ) (cursor weekEnd : ℕ) :
    List WeekBill :=
  match walkDaysPdf em (daysFromTo cursor weekEnd) [] none with
  | (bills, some s) => bills ++ [s.close]
  | (bills, none) =>
    if cursor ≤ weekEnd then bills ++ [⟨dr, 0, cursor, weekEnd⟩] else bills

/-- The outer week loop of `_generate_invoice_pdf` (`router.py` lines 513-580). -/
def segmentWeeksPdf (em : ℕ → Option TimeEntry) (dr : ℚ) :
    ℕ → ℕ → ℕ → List WeekBill
  | 0, _, _ => []
  | fuel + 1, cursor, endDt =>
    if cursor ≤ endDt then
      processWeekPdf em dr cursor (min endDt (cursor + (6 - cursor % 7))) ++
        segmentWeeksPdf em dr fuel (min endDt (cursor + (6 - cursor % 7)) + 1) endDt
    else []

/-- The complete segmentation of `_generate_invoice_pdf`
(`router.py` lines 506-580). -/
def segmentBillsPdf (startDt endDt : ℕ) (es : List TimeEntry) : List WeekBill :=
  segmentWeeksPdf (entryMapPdf es) (defaultRatePdf es) (endDt + 1 - startDt) startDt endDt

/-! ## The invoice assembler (`pdf/invoice.py`)

The PDF layout calls (`pdf.cell`, fonts, colors, geometry) are external
plumbing; the model records the sequence of text cell contents written to
the document, which is what the claims are about.  The numeric and date
formatting of the source (`strftime("%Y-%m-%d")`, `strftime("%B %d %Y")`,
`f"{q:.1f}"`, `f"${r:,.2f}"`) is abstracted by injective renderings of the
modelled values; none of the verified claims depend on rounding or digit
layout, only on which values are rendered. -/

/-- The `Address` dataclass of `pdf/invoice.py`. -/
structure Address where
  recipient : String
  company_name : String
  street : String
  city : String
  state : String
  zip_code : String
  phone_number : String
deriving DecidableEq, Repr

/-- `NET = 15` (`pdf/invoice.py` line 8). -/
def NET : ℕ := 15

/-- Stand-in for `strftime("%Y-%m-%d")`: an injective rendering of a date. -/
def fmtDate (d : ℕ) : String := toString d

/-- Stand-in for `strftime("%B %d %Y")`: an injective rendering of a date. -/
def fmtDateLong (d : ℕ) : String := toString d

/-- Stand-in for the quantity format `f"{q:.1f}"`. -/
def fmtQty (q : ℚ) : String := toString q

/-- Stand-in for the currency format `f"${r:,.2f}"`. -/
def fmtMoney (q : ℚ) : String := "$" ++ toString q

/-- The computed values of one row of `_add_itemized_description_table`
(`pdf/invoice.py` lines 149-152): `qty`, the description's two dates,
`price`, `amount = bill.hour_rate * bill.quantity`. -/
structure ItemRow where
  quantity : ℚ
  desc_start : ℕ
  desc_end : ℕ
  unit_price : ℚ
  amount : ℚ
deriving DecidableEq, Repr

/-- The rows of the itemized table, one per `WeekBill` in input order
(`pdf/invoice.py` lines 143-158). -/
def itemizedRows (bills : List WeekBill) : List ItemRow :=
  bills.map (fun b => ⟨b.quantity, b.start_date, b.end_date, b.hour_rate,
    b.hour_rate * b.quantity⟩)

/-- The running total of `_add_itemized_description_table`:
`total_amount = 0.0` then `total_amount += bill.hour_rate * bill.quantity`
per row (`pdf/invoice.py` lines 142 and 160). -/
def itemizedTotal (bills : List WeekBill) : ℚ :=
  bills.foldl (fun acc b => acc + b.hour_rate * b.quantity) 0

/-- The text cells of one table row (`pdf/invoice.py` lines 149-157). -/
def billCells (b : WeekBill) : List String :=
  [fmtQty b.quantity,
   fmtDateLong b.start_date ++ " - " ++ fmtDateLong b.end_date,
   fmtMoney b.hour_rate,
   fmtMoney (b.hour_rate * b.quantity)]

/-- All text cells written by `_add_itemized_description_table`: the header
labels, the rows in order, and the final Total row. -/
def itemizedTableCells (bills : List WeekBill) : List String :=
  ["QUANTITY", "DESCRIPTION", "UNIT PRICE", "AMOUNT"] ++
    (bills.map billCells).flatten ++ ["Total", fmtMoney (itemizedTotal bills)]

/-- The text cells written by `_add_invoice_information`
(`pdf/invoice.py` lines 80-91).  `date_to_use = invoice_date if invoice_date
else datetime.datetime.now().date()` is modelled by `Option.getD` with the
ambient system date passed as the explicit argument `today` (a Python
`date` is always truthy, so the fallback fires exactly when `invoice_date`
is `None`). -/
def invoiceInformationCells (corp : Address) (invoiceNumber : ℕ)
    (invoiceDate : Option ℕ) (today : ℕ) : List String :=
  [corp.street,
   corp.city ++ ", " ++ corp.state ++ " " ++ corp.zip_code,
   corp.phone_number,
   "Date: " ++ fmtDate (invoiceDate.getD today),
   "Invoice # " ++ toString invoiceNumber]

/-- The text cells written by `_add_billing_and_shipping_information`
(`pdf/invoice.py` lines 94-125). -/
def billingShippingCells (bill ship : Address) : List String :=
  ["BILL TO", "SHIP TO",
   bill.company_name, ship.company_name,
   bill.recipient, ship.recipient,
   bill.street, ship.street,
   bill.city ++ ", " ++ bill.state ++ " " ++ bill.zip_code,
   ship.city ++ ", " ++ ship.state ++ " " ++ ship.zip_code]

/-- The full sequence of text cells written by `generate_pdf_to_fp`
(`pdf/invoice.py` lines 30-77), in document order: title, corp name,
invoice information, billing/shipping block (the shipping address is the
bill-to address, line 57), itemized table, payable-to line and terms
footer.  `today` is the ambient system date consulted only when
`invoiceDate` is `None`. -/
def generatePdfCells (corp bill : Address) (bills : List WeekBill)
    (invoiceNumber : ℕ) (invoiceDate : Option ℕ) (today : ℕ) : List String :=
  ["INVOICE", corp.company_name] ++
    invoiceInformationCells corp invoiceNumber invoiceDate today ++
    billingShippingCells bill bill ++
    itemizedTableCells bills ++
    ["Make all checks payable to " ++ corp.company_name,
     "Terms", "Thank you for your business!",
     "Payment terms: Net " ++ toString NET]

/-! ## Basic lemmas about the day list -/

theorem daysFromTo_nil (a b : ℕ) (h : b < a) : daysFromTo a b = [] := by
  unfold daysFromTo
  have : b + 1 - a = 0 := by omega
  simp [this]

theorem daysFromTo_cons (a b : ℕ) (h : a ≤ b) : daysFromTo a b = a :: daysFromTo (a + 1) b := by
  unfold daysFromTo
  have h1 : b + 1 - a = (b + 1 - (a + 1)) + 1 := by omega
  rw [h1, List.range_succ_eq_map, List.map_cons, List.map_map]
  refine congrArg (fun l => (a + 0) :: l) ?_
  apply List.map_congr_left
  intro i _
  simp only [Function.comp_apply]
  omega

theorem daysFromTo_self (a : ℕ) : daysFromTo a a = [a] := by
  rw [daysFromTo_cons a a le_rfl, daysFromTo_nil (a + 1) a (by omega)]

theorem daysFromTo_split (c b : ℕ) :
    ∀ n a, c + 1 - a = n → a ≤ c + 1 → c ≤ b →
      daysFromTo a b = daysFromTo a c ++ daysFromTo (c + 1) b := by
  intro n
  induction n with
  | zero =>
    intro a hn h1 h2
    have ha : a = c + 1 := by omega
    subst ha
    rw [daysFromTo_nil (c + 1) c (by omega)]
    simp
  | succ n ih =>
    intro a hn h1 h2
    have hac : a ≤ c := by omega
    rw [daysFromTo_cons a b (by omega), daysFromTo_cons a c hac,
      ih (a + 1) (by omega) (by omega) h2]
    simp

/-- Membership in the day list. -/
theorem mem_daysFromTo {a b d : ℕ} : d ∈ daysFromTo a b ↔ a ≤ d ∧ d ≤ b := by
  unfold daysFromTo
  simp only [List.mem_map, List.mem_range]
  constructor
  · rintro ⟨i, hi, rfl⟩
    omega
  · rintro ⟨h1, h2⟩
    exact ⟨d - a, by omega, by omega⟩

/-! ## Step equations and structure lemmas about the day walk -/

theorem walkDays_nil (em : ℕ → Option TimeEntry) (bills : List WeekBill) (seg : Option Seg) :
    walkDays em [] bills seg = (bills, seg) := rfl

theorem walkDays_gap_none (em : ℕ → Option TimeEntry) (d : ℕ) (ds : List ℕ)
    (bills : List WeekBill) (hd : em d = none) :
    walkDays em (d :: ds) bills none = walkDays em ds bills none := by
  simp [walkDays, hd]

theorem walkDays_gap_close (em : ℕ → Option TimeEntry) (d : ℕ) (ds : List ℕ)
    (bills : List WeekBill) (s : Seg) (hd : em d = none) :
    walkDays em (d :: ds) bills (some s) = walkDays em ds (bills ++ [s.close]) none := by
  simp [walkDays, hd]

theorem walkDays_entry_open (em : ℕ → Option TimeEntry) (d : ℕ) (ds : List ℕ)
    (bills : List WeekBill) (e : TimeEntry) (hd : em d = some e) :
    walkDays em (d :: ds) bills none =
      walkDays em ds bills (some ⟨e.hourly_rate, e.hours, d, d⟩) := by
  simp [walkDays, hd]

theorem walkDays_entry_extend (em : ℕ → Option TimeEntry) (d : ℕ) (ds : List ℕ)
    (bills : List WeekBill) (e : TimeEntry) (s : Seg) (hd : em d = some e)
    (hr : e.hourly_rate = s.rate) :
    walkDays em (d :: ds) bills (some s) =
      walkDays em ds bills (some ⟨s.rate, s.hours + e.hours, s.seg_start, d⟩) := by
  simp [walkDays, hd, hr]

theorem walkDays_entry_switch (em : ℕ → Option TimeEntry) (d : ℕ) (ds : List ℕ)
    (bills : List WeekBill) (e : TimeEntry) (s : Seg) (hd : em d = some e)
    (hr : ¬ e.hourly_rate = s.rate) :
    walkDays em (d :: ds) bills (some s) =
      walkDays em ds (bills ++ [s.close]) (some ⟨e.hourly_rate, e.hours, d, d⟩) := by
  simp [walkDays, hd, hr]

theorem walkDays_append (em : ℕ → Option TimeEntry) (l₁ l₂ : List ℕ) :
    ∀ bills seg, walkDays em (l₁ ++ l₂) bills seg =
      walkDays em l₂ (walkDays em l₁ bills seg).1 (walkDays em l₁ bills seg).2 := by
  induction l₁ with
  | nil => intro bills seg; simp [walkDays]
  | cons d ds ih =>
    intro bills seg
    rw [List.cons_append]
    rcases seg with _ | s <;> rcases hd : em d with _ | e
    · rw [walkDays_gap_none em d _ bills hd, walkDays_gap_none em d _ bills hd]
      exact ih bills none
    · rw [walkDays_entry_open em d _ bills e hd, walkDays_entry_open em d _ bills e hd]
      exact ih bills _
    · rw [walkDays_gap_close em d _ bills s hd, walkDays_gap_close em d _ bills s hd]
      exact ih (bills ++ [s.close]) none
    · by_cases hr : e.hourly_rate = s.rate
      · rw [walkDays_entry_extend em d _ bills e s hd hr,
          walkDays_entry_extend em d _ bills e s hd hr]
        exact ih bills _
      · rw [walkDays_entry_switch em d _ bills e s hd hr,
          walkDays_entry_switch em d _ bills e s hd hr]
        exact ih (bills ++ [s.close]) _

/-- The bill accumulator is only ever appended to: the result on initial
accumulator `bills` is `bills` followed by the result on `[]`. -/
theorem walkDays_bills_acc (em : ℕ → Option TimeEntry) (ds : List ℕ) :
    ∀ bills seg, walkDays em ds bills seg =
      (bills ++ (walkDays em ds [] seg).1, (walkDays em ds [] seg).2) := by
  induction ds with
  | nil => intro bills seg; simp [walkDays]
  | cons d ds ih =>
    intro bills seg
    rcases seg with _ | s <;> rcases hd : em d with _ | e
    · rw [walkDays_gap_none em d ds bills hd, walkDays_gap_none em d ds [] hd]
      exact ih bills none
    · rw [walkDays_entry_open em d ds bills e hd, walkDays_entry_open em d ds [] e hd]
      exact ih bills _
    · rw [walkDays_gap_close em d ds bills s hd, walkDays_gap_close em d ds [] s hd,
        ih (bills ++ [s.close]) none, ih ([] ++ [s.close]) none]
      simp
    · by_cases hr : e.hourly_rate = s.rate
      · rw [walkDays_entry_extend em d ds bills e s hd hr,
          walkDays_entry_extend em d ds [] e s hd hr]
        exact ih bills _
      · rw [walkDays_entry_switch em d ds bills e s hd hr,
          walkDays_entry_switch em d ds [] e s hd hr,
          ih (bills ++ [s.close]) _, ih ([] ++ [s.close]) _]
        simp
theorem walkDays_bills_mono (em : ℕ → Option TimeEntry) (ds : List ℕ)
    (bills : List WeekBill) (seg : Option Seg) {x : WeekBill} (hx : x ∈ bills) :
    x ∈ (walkDays em ds bills seg).1 := by
  rw [walkDays_bills_acc]
  exact List.mem_append_left _ hx

/-! ## Walk invariants -/

/-- Range invariant of the day walk: starting at day `a` with any open
segment contained in `[lo, a)` and accumulated bills contained in
`[lo, b]`, after walking the days `a .. b` the open segment and all bills
are contained in `[lo, b]`. -/
theorem walkDays_inv (em : ℕ → Option TimeEntry) (lo : ℕ) :
    ∀ n a b bills seg, b + 1 - a = n → lo ≤ a → a ≤ b + 1 →
      (∀ s, seg = some s →
        lo ≤ s.seg_start ∧ s.seg_start ≤ s.seg_end ∧ s.seg_end < a) →
      (∀ x ∈ bills, lo ≤ x.start_date ∧ x.start_date ≤ x.end_date ∧ x.end_date ≤ b) →
      (∀ s, (walkDays em (daysFromTo a b) bills seg).2 = some s →
          lo ≤ s.seg_start ∧ s.seg_start ≤ s.seg_end ∧ s.seg_end ≤ b) ∧
      (∀ x ∈ (walkDays em (daysFromTo a b) bills seg).1,
          lo ≤ x.start_date ∧ x.start_date ≤ x.end_date ∧ x.end_date ≤ b) := by
  intro n
  induction n with
  | zero =>
    intro a b bills seg hn hlo hab hseg hbills
    rw [daysFromTo_nil a b (by omega), walkDays_nil]
    refine ⟨fun s hs => ?_, hbills⟩
    have := hseg s hs
    omega
  | succ n ih =>
    intro a b bills seg hn hlo hab hseg hbills
    have hab' : a ≤ b := by omega
    rw [daysFromTo_cons a b hab']
    rcases seg with _ | s <;> rcases hd : em a with _ | e
    · rw [walkDays_gap_none em a _ bills hd]
      exact ih (a + 1) b bills none (by omega) (by omega) (by omega)
        (by intro s hs; cases hs) hbills
    · rw [walkDays_entry_open em a _ bills e hd]
      refine ih (a + 1) b bills _ (by omega) (by omega) (by omega) ?_ hbills
      intro s hs
      cases hs
      simp
      omega
    · rw [walkDays_gap_close em a _ bills s hd]
      refine ih (a + 1) b _ none (by omega) (by omega) (by omega)
        (by intro t ht; cases ht) ?_
      intro x hx
      rcases List.mem_append.1 hx with hx | hx
      · exact hbills x hx
      · have hx' : x = s.close := by simpa using hx
        subst hx'
        have := hseg s rfl
        unfold Seg.close
        simp only
        omega
    · by_cases hr : e.hourly_rate = s.rate
      · rw [walkDays_entry_extend em a _ bills e s hd hr]
        refine ih (a + 1) b bills _ (by omega) (by omega) (by omega) ?_ hbills
        intro t ht
        cases ht
        have := hseg s rfl
        simp only
        omega
      · rw [walkDays_entry_switch em a _ bills e s hd hr]
        refine ih (a + 1) b _ _ (by omega) (by omega) (by omega) ?_ ?_
        · intro t ht
          cases ht
          simp only
          omega
        · intro x hx
          rcases List.mem_append.1 hx with hx | hx
          · exact hbills x hx
          · have hx' : x = s.close := by simpa using hx
            subst hx'
            have := hseg s rfl
            unfold Seg.close
            simp only
            omega

/-- Every bill emitted by one week's processing lies inside
`[cursor, weekEnd]` and is a well-formed span. -/
theorem processWeek_eq_close (em : ℕ → Option TimeEntry) (dr : ℚ) (c we : ℕ)
    (bills : List WeekBill) (s : Seg)
    (hw : walkDays em (daysFromTo c we) [] none = (bills, some s)) :
    processWeek em dr c we = bills ++ [s.close] := by
  unfold processWeek
  rw [hw]

theorem processWeek_eq_zero (em : ℕ → Option TimeEntry) (dr : ℚ) (c we : ℕ)
    (bills : List WeekBill)
    (hw : walkDays em (daysFromTo c we) [] none = (bills, none)) :
    processWeek em dr c we =
      if c ≤ we then bills ++ [⟨dr, 0, c, we⟩] else bills := by
  unfold processWeek
  rw [hw]

theorem processWeek_bill_range (em : ℕ → Option TimeEntry) (dr : ℚ) (c we : ℕ) :
    ∀ x ∈ processWeek em dr c we,
      c ≤ x.start_date ∧ x.start_date ≤ x.end_date ∧ x.end_date ≤ we := by
  intro x hx
  by_cases hcw : c ≤ we
  · have h := walkDays_inv em c (we + 1 - c) c we [] none rfl le_rfl (by omega)
      (by intro s hs; cases hs) (by intro x hx; cases hx)
    rcases hw : walkDays em (daysFromTo c we) [] none with ⟨bills, seg⟩
    rw [hw] at h
    rcases seg with _ | s
    · rw [processWeek_eq_zero em dr c we bills hw, if_pos hcw] at hx
      rcases List.mem_append.1 hx with hx | hx
      · exact h.2 x hx
      · have hx' : x = ⟨dr, 0, c, we⟩ := by simpa using hx
        subst hx'
        exact ⟨le_rfl, hcw, le_rfl⟩
    · rw [processWeek_eq_close em dr c we bills s hw] at hx
      rcases List.mem_append.1 hx with hx | hx
      · exact h.2 x hx
      · have hx' : x = s.close := by simpa using hx
        subst hx'
        have := h.1 s rfl
        unfold Seg.close
        simp only
        exact this
  · rw [processWeek_eq_zero em dr c we []
      (by rw [daysFromTo_nil c we (by omega)]; rfl), if_neg hcw] at hx
    cases hx

/-- Persistence of coverage: once the walk state covers the span `[x, y]`
(either by an already closed bill or by the open segment), walking any
further days beyond `y` keeps it covered. -/
theorem walkDays_cover_mono (em : ℕ → Option TimeEntry) (x y : ℕ) :
    ∀ ds bills seg, (∀ d ∈ ds, y < d) →
      ((∃ w ∈ bills, w.start_date ≤ x ∧ y ≤ w.end_date) ∨
        (∃ s, seg = some s ∧ s.seg_start ≤ x ∧ y ≤ s.seg_end)) →
      ((∃ w ∈ (walkDays em ds bills seg).1, w.start_date ≤ x ∧ y ≤ w.end_date) ∨
        (∃ s, (walkDays em ds bills seg).2 = some s ∧
          s.seg_start ≤ x ∧ y ≤ s.seg_end)) := by
  intro ds
  induction ds with
  | nil => intro bills seg _ h; simpa [walkDays_nil] using h
  | cons d ds ih =>
    intro bills seg hds h
    have hyd : y < d := hds d (List.mem_cons_self d ds)
    have hds' : ∀ d' ∈ ds, y < d' := fun d' hd' => hds d' (List.mem_cons_of_mem d hd')
    rcases seg with _ | s <;> rcases hd : em d with _ | e
    · rw [walkDays_gap_none em d ds bills hd]
      refine ih bills none hds' ?_
      rcases h with h | ⟨s, hs', _⟩
      · exact Or.inl h
      · cases hs'
    · rw [walkDays_entry_open em d ds bills e hd]
      refine ih bills _ hds' ?_
      rcases h with h | ⟨s, hs', _⟩
      · exact Or.inl h
      · cases hs'
    · rw [walkDays_gap_close em d ds bills s hd]
      refine ih _ none hds' ?_
      left
      rcases h with ⟨w, hw, hcov⟩ | ⟨t, ht, hcov⟩
      · exact ⟨w, List.mem_append_left _ hw, hcov⟩
      · cases ht
        exact ⟨s.close, List.mem_append_right _ (by simp), hcov⟩
    · by_cases hr : e.hourly_rate = s.rate
      · rw [walkDays_entry_extend em d ds bills e s hd hr]
        refine ih bills _ hds' ?_
        rcases h with h | ⟨t, ht, hcov⟩
        · exact Or.inl h
        · cases ht
          exact Or.inr ⟨_, rfl, by simp only; omega, by simp only; omega⟩
      · rw [walkDays_entry_switch em d ds bills e s hd hr]
        refine ih _ _ hds' ?_
        left
        rcases h with ⟨w, hw, hcov⟩ | ⟨t, ht, hcov⟩
        · exact ⟨w, List.mem_append_left _ hw, hcov⟩
        · cases ht
          exact ⟨s.close, List.mem_append_right _ (by simp), hcov⟩

/-- Walking only gap days changes nothing when no segment is open. -/
theorem walkDays_all_gaps (em : ℕ → Option TimeEntry) :
    ∀ ds bills, (∀ d ∈ ds, em d = none) →
      walkDays em ds bills none = (bills, none) := by
  intro ds
  induction ds with
  | nil => intro bills _; rfl
  | cons d ds ih =>
    intro bills hds
    rw [walkDays_gap_none em d ds bills (hds d (List.mem_cons_self d ds))]
    exact ih bills (fun d' hd' => hds d' (List.mem_cons_of_mem d hd'))

/-- The walk only consults the entry map on the days it visits. -/
theorem walkDays_congr (em₁ em₂ : ℕ → Option TimeEntry) :
    ∀ ds bills seg, (∀ d ∈ ds, em₁ d = em₂ d) →
      walkDays em₁ ds bills seg = walkDays em₂ ds bills seg := by
  intro ds
  induction ds with
  | nil => intro bills seg _; rfl
  | cons d ds ih =>
    intro bills seg hds
    have hd₂ : em₂ d = em₁ d := (hds d (List.mem_cons_self d ds)).symm
    have hds' : ∀ d' ∈ ds, em₁ d' = em₂ d' :=
      fun d' hd' => hds d' (List.mem_cons_of_mem d hd')
    rcases seg with _ | s <;> rcases hd : em₁ d with _ | e
    · rw [walkDays_gap_none em₁ d ds bills hd,
        walkDays_gap_none em₂ d ds bills (hd₂.trans hd)]
      exact ih bills none hds'
    · rw [walkDays_entry_open em₁ d ds bills e hd,
        walkDays_entry_open em₂ d ds bills e (hd₂.trans hd)]
      exact ih bills _ hds'
    · rw [walkDays_gap_close em₁ d ds bills s hd,
        walkDays_gap_close em₂ d ds bills s (hd₂.trans hd)]
      exact ih _ none hds'
    · by_cases hr : e.hourly_rate = s.rate
      · rw [walkDays_entry_extend em₁ d ds bills e s hd hr,
          walkDays_entry_extend em₂ d ds bills e s (hd₂.trans hd) hr]
        exact ih bills _ hds'
      · rw [walkDays_entry_switch em₁ d ds bills e s hd hr,
          walkDays_entry_switch em₂ d ds bills e s (hd₂.trans hd) hr]
        exact ih _ _ hds'

/-- After walking up to a day `d` that has an entry `e`, a segment is open
whose rate is `e.hourly_rate` and whose span ends exactly at `d`. -/
theorem walkDays_last_entry (em : ℕ → Option TimeEntry) (lo : ℕ) (e : TimeEntry) :
    ∀ n a d bills seg, d + 1 - a = n → lo ≤ a → a ≤ d →
      (∀ s, seg = some s →
        lo ≤ s.seg_start ∧ s.seg_start ≤ s.seg_end ∧ s.seg_end < a) →
      em d = some e →
      ∃ s, (walkDays em (daysFromTo a d) bills seg).2 = some s ∧
        s.rate = e.hourly_rate ∧ s.seg_end = d ∧ lo ≤ s.seg_start ∧
        s.seg_start ≤ d := by
  intro n
  induction n with
  | zero => intro a d bills seg hn _ had _ _; omega
  | succ n ih =>
    intro a d bills seg hn hlo had hseg hd
    rcases Nat.lt_or_ge a d with hlt | hge
    · rw [daysFromTo_cons a d (by omega)]
      rcases seg with _ | s <;> rcases he : em a with _ | e'
      · rw [walkDays_gap_none em a _ bills he]
        exact ih (a + 1) d bills none (by omega) (by omega) (by omega)
          (by intro t ht; cases ht) hd
      · rw [walkDays_entry_open em a _ bills e' he]
        refine ih (a + 1) d bills _ (by omega) (by omega) (by omega) ?_ hd
        intro t ht
        cases ht
        simp only
        omega
      · rw [walkDays_gap_close em a _ bills s he]
        exact ih (a + 1) d _ none (by omega) (by omega) (by omega)
          (by intro t ht; cases ht) hd
      · by_cases hr : e'.hourly_rate = s.rate
        · rw [walkDays_entry_extend em a _ bills e' s he hr]
          refine ih (a + 1) d bills _ (by omega) (by omega) (by omega) ?_ hd
          intro t ht
          cases ht
          have := hseg s rfl
          simp only
          omega
        · rw [walkDays_entry_switch em a _ bills e' s he hr]
          refine ih (a + 1) d _ _ (by omega) (by omega) (by omega) ?_ hd
          intro t ht
          cases ht
          simp only
          omega
    · have ha : a = d := by omega
      subst ha
      rw [daysFromTo_self a]
      rcases seg with _ | s
      · rw [walkDays_entry_open em a [] bills e hd, walkDays_nil]
        refine ⟨_, rfl, rfl, rfl, ?_, ?_⟩
        · show lo ≤ a
          omega
        · exact le_rfl
      · by_cases hr : e.hourly_rate = s.rate
        · rw [walkDays_entry_extend em a [] bills e s hd hr, walkDays_nil]
          have hs := hseg s rfl
          refine ⟨_, rfl, hr.symm, rfl, ?_, ?_⟩
          · show lo ≤ s.seg_start
            omega
          · show s.seg_start ≤ a
            omega
        · rw [walkDays_entry_switch em a [] bills e s hd hr, walkDays_nil]
          refine ⟨_, rfl, rfl, rfl, ?_, ?_⟩
          · show lo ≤ a
            omega
          · exact le_rfl

/-- An open segment is eventually closed into a bill that starts exactly at
the segment's start, unless it is still open at the end of the walk. -/
theorem walkDays_seg_fate (em : ℕ → Option TimeEntry) :
    ∀ ds bills s,
      (∃ w ∈ (walkDays em ds bills (some s)).1, w.start_date = s.seg_start) ∨
      (∃ t, (walkDays em ds bills (some s)).2 = some t ∧
        t.seg_start = s.seg_start) := by
  intro ds
  induction ds with
  | nil => intro bills s; exact Or.inr ⟨s, rfl, rfl⟩
  | cons d ds ih =>
    intro bills s
    rcases hd : em d with _ | e
    · rw [walkDays_gap_close em d ds bills s hd]
      left
      refine ⟨s.close, ?_, rfl⟩
      exact walkDays_bills_mono em ds _ none (List.mem_append_right _ (by simp))
    · by_cases hr : e.hourly_rate = s.rate
      · rw [walkDays_entry_extend em d ds bills e s hd hr]
        exact ih bills _
      · rw [walkDays_entry_switch em d ds bills e s hd hr]
        left
        refine ⟨s.close, ?_, rfl⟩
        exact walkDays_bills_mono em ds _ _ (List.mem_append_right _ (by simp))

/-- If the last walked day is a gap day, no segment is open afterwards. -/
theorem walkDays_last_gap (em : ℕ → Option TimeEntry) :
    ∀ n a d bills seg, d + 1 - a = n → a ≤ d → em d = none →
      (walkDays em (daysFromTo a d) bills seg).2 = none := by
  intro n
  induction n with
  | zero => intro a d bills seg hn had _; omega
  | succ n ih =>
    intro a d bills seg hn had hd
    rcases Nat.lt_or_ge a d with hlt | hge
    · rw [daysFromTo_cons a d (by omega)]
      rcases seg with _ | s <;> rcases he : em a with _ | e'
      · rw [walkDays_gap_none em a _ bills he]
        exact ih (a + 1) d bills none (by omega) (by omega) hd
      · rw [walkDays_entry_open em a _ bills e' he]
        exact ih (a + 1) d bills _ (by omega) (by omega) hd
      · rw [walkDays_gap_close em a _ bills s he]
        exact ih (a + 1) d _ none (by omega) (by omega) hd
      · by_cases hr : e'.hourly_rate = s.rate
        · rw [walkDays_entry_extend em a _ bills e' s he hr]
          exact ih (a + 1) d bills _ (by omega) (by omega) hd
        · rw [walkDays_entry_switch em a _ bills e' s he hr]
          exact ih (a + 1) d _ _ (by omega) (by omega) hd
    · have ha : a = d := by omega
      subst ha
      rw [daysFromTo_self a]
      rcases seg with _ | s
      · rw [walkDays_gap_none em a [] bills hd, walkDays_nil]
      · rw [walkDays_gap_close em a [] bills s hd, walkDays_nil]

/-! ## Per-week coverage and boundary lemmas -/

/-- A week none of whose days has an entry produces exactly the single
zero-quantity bill covering the whole week at the default rate
(`router.py` lines 325-329, matching the code comment there). -/
theorem processWeek_empty (em : ℕ → Option TimeEntry) (dr : ℚ) (c we : ℕ)
    (hcw : c ≤ we) (hempty : ∀ d, c ≤ d → d ≤ we → em d = none) :
    processWeek em dr c we = [⟨dr, 0, c, we⟩] := by
  have hw : walkDays em (daysFromTo c we) [] none = ([], none) :=
    walkDays_all_gaps em (daysFromTo c we) []
      (fun d hd => hempty d (mem_daysFromTo.1 hd).1 (mem_daysFromTo.1 hd).2)
  rw [processWeek_eq_zero em dr c we [] hw, if_pos hcw]
  rfl

/-- Every day of the week that has an entry is covered by some bill of the
week's output. -/
theorem processWeek_cover_entry (em : ℕ → Option TimeEntry) (dr : ℚ)
    (c we d : ℕ) (e : TimeEntry) (hcd : c ≤ d) (hdw : d ≤ we)
    (hd : em d = some e) :
    ∃ w ∈ processWeek em dr c we, w.start_date ≤ d ∧ d ≤ w.end_date := by
  have hsplit : daysFromTo c we = daysFromTo c d ++ daysFromTo (d + 1) we :=
    daysFromTo_split d we (d + 1 - c) c rfl (by omega) (by omega)
  obtain ⟨s, hs2, _, hend, _, hstart⟩ :=
    walkDays_last_entry em c e (d + 1 - c) c d [] none rfl le_rfl hcd
      (by intro t ht; cases ht) hd
  have hmono := walkDays_cover_mono em d d (daysFromTo (d + 1) we)
    (walkDays em (daysFromTo c d) [] none).1
    (walkDays em (daysFromTo c d) [] none).2
    (by intro d' hd'; have := (mem_daysFromTo.1 hd').1; omega)
    (Or.inr ⟨s, hs2, by omega, by omega⟩)
  rw [← walkDays_append, ← hsplit] at hmono
  rcases hw : walkDays em (daysFromTo c we) [] none with ⟨bills, seg⟩
  rw [hw] at hmono
  rcases hmono with ⟨w, hwmem, hcov⟩ | ⟨t, ht, hcov⟩
  · rcases seg with _ | s'
    · rw [processWeek_eq_zero em dr c we bills hw, if_pos (by omega)]
      exact ⟨w, List.mem_append_left _ hwmem, hcov⟩
    · rw [processWeek_eq_close em dr c we bills s' hw]
      exact ⟨w, List.mem_append_left _ hwmem, hcov⟩
  · have ht' : seg = some t := ht
    subst ht'
    rw [processWeek_eq_close em dr c we bills t hw]
    exact ⟨t.close, List.mem_append_right _ (by simp), hcov⟩

/-- Two consecutive days of one week that both carry entries with the same
rate end up inside one single bill: the second day extends the segment
opened or extended on the first day. -/
theorem processWeek_cover_pair (em : ℕ → Option TimeEntry) (dr : ℚ)
    (c we d : ℕ) (e₁ e₂ : TimeEntry) (hcd : c ≤ d) (hdw : d + 1 ≤ we)
    (hd₁ : em d = some e₁) (hd₂ : em (d + 1) = some e₂)
    (hr : e₂.hourly_rate = e₁.hourly_rate) :
    ∃ w ∈ processWeek em dr c we, w.start_date ≤ d ∧ d + 1 ≤ w.end_date := by
  have hsplit : daysFromTo c we = daysFromTo c (d + 1) ++ daysFromTo (d + 2) we :=
    daysFromTo_split (d + 1) we (d + 2 - c) c rfl (by omega) (by omega)
  have hsplit₁ : daysFromTo c (d + 1) = daysFromTo c d ++ [d + 1] := by
    rw [daysFromTo_split d (d + 1) (d + 1 - c) c rfl (by omega) (by omega),
      daysFromTo_self]
  obtain ⟨s, hs2, hrate, hend, _, hstart⟩ :=
    walkDays_last_entry em c e₁ (d + 1 - c) c d [] none rfl le_rfl hcd
      (by intro t ht; cases ht) hd₁
  have hstep : walkDays em (daysFromTo c (d + 1)) [] none =
      ((walkDays em (daysFromTo c d) [] none).1,
        some ⟨s.rate, s.hours + e₂.hours, s.seg_start, d + 1⟩) := by
    rw [hsplit₁, walkDays_append, hs2,
      walkDays_entry_extend em (d + 1) [] _ e₂ s hd₂ (by rw [hr, ← hrate]),
      walkDays_nil]
  have hmono := walkDays_cover_mono em d (d + 1) (daysFromTo (d + 2) we)
    (walkDays em (daysFromTo c (d + 1)) [] none).1
    (walkDays em (daysFromTo c (d + 1)) [] none).2
    (by intro d' hd'; have := (mem_daysFromTo.1 hd').1; omega)
    (by
      rw [hstep]
      exact Or.inr ⟨_, rfl, by show s.seg_start ≤ d; omega, by show d + 1 ≤ d + 1; omega⟩)
  rw [← walkDays_append, ← hsplit] at hmono
  rcases hw : walkDays em (daysFromTo c we) [] none with ⟨bills, seg⟩
  rw [hw] at hmono
  rcases hmono with ⟨w, hwmem, hcov⟩ | ⟨t, ht, hcov⟩
  · rcases seg with _ | s'
    · rw [processWeek_eq_zero em dr c we bills hw, if_pos (by omega)]
      exact ⟨w, List.mem_append_left _ hwmem, hcov⟩
    · rw [processWeek_eq_close em dr c we bills s' hw]
      exact ⟨w, List.mem_append_left _ hwmem, hcov⟩
  · have ht' : seg = some t := ht
    subst ht'
    rw [processWeek_eq_close em dr c we bills t hw]
    exact ⟨t.close, List.mem_append_right _ (by simp), hcov⟩

/-- A gap day right after an entry day closes the open segment: the week's
output contains a bill ending exactly at the entry day. -/
theorem processWeek_close_at_gap (em : ℕ → Option TimeEntry) (dr : ℚ)
    (c we d : ℕ) (e : TimeEntry) (hcd : c ≤ d) (hdw : d + 1 ≤ we)
    (hd : em d = some e) (hgap : em (d + 1) = none) :
    ∃ w ∈ processWeek em dr c we, w.end_date = d := by
  have hsplit : daysFromTo c we = daysFromTo c (d + 1) ++ daysFromTo (d + 2) we :=
    daysFromTo_split (d + 1) we (d + 2 - c) c rfl (by omega) (by omega)
  have hsplit₁ : daysFromTo c (d + 1) = daysFromTo c d ++ [d + 1] := by
    rw [daysFromTo_split d (d + 1) (d + 1 - c) c rfl (by omega) (by omega),
      daysFromTo_self]
  obtain ⟨s, hs2, _, hend, _, hstart⟩ :=
    walkDays_last_entry em c e (d + 1 - c) c d [] none rfl le_rfl hcd
      (by intro t ht; cases ht) hd
  have hstep : walkDays em (daysFromTo c (d + 1)) [] none =
      ((walkDays em (daysFromTo c d) [] none).1 ++ [s.close], none) := by
    rw [hsplit₁, walkDays_append, hs2,
      walkDays_gap_close em (d + 1) [] _ s hgap, walkDays_nil]
  have hmem : s.close ∈ (walkDays em (daysFromTo c we) [] none).1 := by
    rw [hsplit, walkDays_append, hstep]
    exact walkDays_bills_mono em _ _ none (List.mem_append_right _ (by simp))
  rcases hw : walkDays em (daysFromTo c we) [] none with ⟨bills, seg⟩
  rw [hw] at hmem
  rcases seg with _ | s'
  · rw [processWeek_eq_zero em dr c we bills hw, if_pos (by omega)]
    exact ⟨s.close, List.mem_append_left _ hmem, hend⟩
  · rw [processWeek_eq_close em dr c we bills s' hw]
    exact ⟨s.close, List.mem_append_left _ hmem, hend⟩

/-- An entry day right after a gap day opens a fresh segment: the week's
output contains a bill starting exactly at that entry day. -/
theorem processWeek_open_after_gap (em : ℕ → Option TimeEntry) (dr : ℚ)
    (c we d : ℕ) (e : TimeEntry) (hcd : c ≤ d) (hdw : d + 1 ≤ we)
    (hgap : em d = none) (hd : em (d + 1) = some e) :
    ∃ w ∈ processWeek em dr c we, w.start_date = d + 1 := by
  have hsplit : daysFromTo c we = daysFromTo c d ++ daysFromTo (d + 1) we :=
    daysFromTo_split d we (d + 1 - c) c rfl (by omega) (by omega)
  have hcons : daysFromTo (d + 1) we = (d + 1) :: daysFromTo (d + 2) we :=
    daysFromTo_cons (d + 1) we (by omega)
  have hnone : (walkDays em (daysFromTo c d) [] none).2 = none :=
    walkDays_last_gap em (d + 1 - c) c d [] none rfl hcd hgap
  rcases hw₁ : walkDays em (daysFromTo c d) [] none with ⟨bills₁, seg₁⟩
  rw [hw₁] at hnone
  simp only at hnone
  subst hnone
  have hrest : walkDays em (daysFromTo c we) [] none =
      walkDays em (daysFromTo (d + 2) we) bills₁
        (some ⟨e.hourly_rate, e.hours, d + 1, d + 1⟩) := by
    rw [hsplit, walkDays_append, hw₁, hcons]
    simp only
    rw [walkDays_entry_open em (d + 1) _ bills₁ e hd]
  have hfate := walkDays_seg_fate em (daysFromTo (d + 2) we) bills₁
    ⟨e.hourly_rate, e.hours, d + 1, d + 1⟩
  rw [← hrest] at hfate
  rcases hw : walkDays em (daysFromTo c we) [] none with ⟨bills, seg⟩
  rw [hw] at hfate
  rcases hfate with ⟨w, hwmem, hwstart⟩ | ⟨t, ht, htstart⟩
  · rcases seg with _ | s'
    · rw [processWeek_eq_zero em dr c we bills hw, if_pos (by omega)]
      exact ⟨w, List.mem_append_left _ hwmem, hwstart⟩
    · rw [processWeek_eq_close em dr c we bills s' hw]
      exact ⟨w, List.mem_append_left _ hwmem, hwstart⟩
  · have ht' : seg = some t := ht
    subst ht'
    rw [processWeek_eq_close em dr c we bills t hw]
    exact ⟨t.close, List.mem_append_right _ (by simp), htstart⟩

/-! ## The outer week loop -/

/-- The bills of the whole segmentation are the concatenation of the
per-week outputs over the visited weeks. -/
theorem segmentWeeks_eq_flatten (em : ℕ → Option TimeEntry) (dr : ℚ) :
    ∀ fuel c e, segmentWeeks em dr fuel c e =
      ((walkWeeks fuel c e).map (fun p => processWeek em dr p.1 p.2)).flatten := by
  intro fuel
  induction fuel with
  | zero => intro c e; rfl
  | succ fuel ih =>
    intro c e
    by_cases hce : c ≤ e
    · rw [segmentWeeks, walkWeeks, if_pos hce, if_pos hce, List.map_cons,
        List.flatten_cons, ih]
    · rw [segmentWeeks, walkWeeks, if_neg hce, if_neg hce]
      rfl

/-- Bounds on every visited week: it starts at or after the initial cursor,
is a nonempty span ending at `min endDt (Sunday of its start)`. -/
theorem walkWeeks_mem :
    ∀ fuel c e p, p ∈ walkWeeks fuel c e →
      c ≤ p.1 ∧ p.1 ≤ p.2 ∧ p.2 ≤ e ∧ p.2 = min e (p.1 + (6 - p.1 % 7)) := by
  intro fuel
  induction fuel with
  | zero => intro c e p hp; cases hp
  | succ fuel ih =>
    intro c e p hp
    rw [walkWeeks] at hp
    by_cases hce : c ≤ e
    · rw [if_pos hce] at hp
      rcases List.mem_cons.1 hp with hp | hp
      · subst hp
        refine ⟨le_rfl, ?_, ?_, rfl⟩ <;> simp only <;> omega
      · have := ih _ e p hp
        refine ⟨?_, this.2⟩
        have h1 := this.1
        omega
    · rw [if_neg hce] at hp
      cases hp

/-- Every day of the range is contained in some visited week. -/
theorem walkWeeks_cover :
    ∀ fuel c e d, e + 1 - c ≤ fuel → c ≤ d → d ≤ e →
      ∃ p ∈ walkWeeks fuel c e, p.1 ≤ d ∧ d ≤ p.2 := by
  intro fuel
  induction fuel with
  | zero => intro c e d hfuel hcd hde; omega
  | succ fuel ih =>
    intro c e d hfuel hcd hde
    have hce : c ≤ e := by omega
    rw [walkWeeks, if_pos hce]
    set we := min e (c + (6 - c % 7)) with hwe
    by_cases hd : d ≤ we
    · exact ⟨(c, we), List.mem_cons_self _ _, hcd, hd⟩
    · obtain ⟨p, hp, hpd⟩ := ih (we + 1) e d (by omega) (by omega) hde
      exact ⟨p, List.mem_cons_of_mem _ hp, hpd⟩

/-- The visited weeks are strictly increasing and disjoint. -/
theorem walkWeeks_pairwise :
    ∀ fuel c e, List.Pairwise (fun p q => p.2 < q.1) (walkWeeks fuel c e) := by
  intro fuel
  induction fuel with
  | zero => intro c e; exact List.Pairwise.nil
  | succ fuel ih =>
    intro c e
    rw [walkWeeks]
    by_cases hce : c ≤ e
    · rw [if_pos hce]
      refine List.pairwise_cons.2 ⟨?_, ih _ e⟩
      intro q hq
      have := (walkWeeks_mem fuel _ e q hq).1
      simp only
      omega
    · rw [if_neg hce]
      exact List.Pairwise.nil

/-- Reachability of week starts: the initial cursor, and every Monday
within the range, is visited as a week cursor (with its clamped Sunday as
the week end). -/
theorem walkWeeks_reach :
    ∀ fuel c e w, e + 1 - c ≤ fuel → (w = c ∨ (c < w ∧ w % 7 = 0)) → w ≤ e →
      (w, min e (w + (6 - w % 7))) ∈ walkWeeks fuel c e := by
  intro fuel
  induction fuel with
  | zero => intro c e w hfuel hw hwe; omega
  | succ fuel ih =>
    intro c e w hfuel hw hwe
    have hcw : c ≤ w := by omega
    have hce : c ≤ e := by omega
    rw [walkWeeks, if_pos hce]
    rcases hw with rfl | ⟨hlt, hmon⟩
    · exact List.mem_cons_self _ _
    · set we := min e (c + (6 - c % 7)) with hwe'
      have hnext : we + 1 ≤ w := by omega
      refine List.mem_cons_of_mem _ (ih (we + 1) e w (by omega) ?_ hwe)
      omega

/-- Membership in the segmentation, decomposed by weeks. -/
theorem mem_segmentBills (startDt endDt : ℕ) (es : List TimeEntry) (x : WeekBill) :
    x ∈ segmentBills startDt endDt es ↔
      ∃ p ∈ walkWeeks (endDt + 1 - startDt) startDt endDt,
        x ∈ processWeek (entryMap es) (defaultRate es) p.1 p.2 := by
  unfold segmentBills
  rw [segmentWeeks_eq_flatten]
  simp only [List.mem_flatten, List.mem_map]
  constructor
  · rintro ⟨l, ⟨p, hp, rfl⟩, hx⟩
    exact ⟨p, hp, hx⟩
  · rintro ⟨p, hp, hx⟩
    exact ⟨_, ⟨p, hp, rfl⟩, hx⟩

/-- With an inverted range the outer loop never runs. -/
theorem segmentBills_eq_nil (startDt endDt : ℕ) (es : List TimeEntry)
    (h : endDt < startDt) : segmentBills startDt endDt es = [] := by
  unfold segmentBills
  have h0 : endDt + 1 - startDt = 0 := by omega
  rw [h0]
  rfl

/-- With a valid range the segmentation always yields at least one bill. -/
theorem segmentBills_ne_nil (startDt endDt : ℕ) (es : List TimeEntry)
    (h : startDt ≤ endDt) : segmentBills startDt endDt es ≠ [] := by
  unfold segmentBills
  have h1 : endDt + 1 - startDt = (endDt - startDt) + 1 := by omega
  rw [h1, segmentWeeks, if_pos h]
  intro hcon
  rcases List.append_eq_nil.1 hcon with ⟨hpw, _⟩
  set we := min endDt (startDt + (6 - startDt % 7)) with hwe
  have hcw : startDt ≤ we := by omega
  rcases hw : walkDays (entryMap es) (daysFromTo startDt we) [] none with ⟨bills, seg⟩
  rcases seg with _ | s
  · rw [processWeek_eq_zero _ _ _ _ bills hw, if_pos hcw] at hpw
    simp at hpw
  · rw [processWeek_eq_close _ _ _ _ bills s hw] at hpw
    simp at hpw

/-- The week loop only consults the entry map inside `[cursor, endDt]` and
is otherwise determined by the default rate. -/
theorem processWeek_congr (em₁ em₂ : ℕ → Option TimeEntry) (dr : ℚ) (c we : ℕ)
    (hagree : ∀ d, c ≤ d → d ≤ we → em₁ d = em₂ d) :
    processWeek em₁ dr c we = processWeek em₂ dr c we := by
  unfold processWeek
  rw [walkDays_congr em₁ em₂ (daysFromTo c we) [] none
    (fun d hd => hagree d (mem_daysFromTo.1 hd).1 (mem_daysFromTo.1 hd).2)]

theorem segmentWeeks_congr (em₁ em₂ : ℕ → Option TimeEntry) (dr : ℚ) :
    ∀ fuel c e, (∀ d, c ≤ d → d ≤ e → em₁ d = em₂ d) →
      segmentWeeks em₁ dr fuel c e = segmentWeeks em₂ dr fuel c e := by
  intro fuel
  induction fuel with
  | zero => intro c e _; rfl
  | succ fuel ih =>
    intro c e hagree
    by_cases hce : c ≤ e
    · rw [segmentWeeks, segmentWeeks, if_pos hce, if_pos hce]
      set we := min e (c + (6 - c % 7)) with hwe
      rw [processWeek_congr em₁ em₂ dr c we
        (fun d h1 h2 => hagree d h1 (by omega)),
        ih (we + 1) e (fun d h1 h2 => hagree d (by omega) h2)]
    · rw [segmentWeeks, segmentWeeks, if_neg hce, if_neg hce]

/-- Running-total accumulation equals the sum of the per-row products. -/
theorem itemizedTotal_go (bills : List WeekBill) :
    ∀ acc : ℚ, bills.foldl (fun acc b => acc + b.hour_rate * b.quantity) acc =
      acc + (bills.map (fun b => b.hour_rate * b.quantity)).sum := by
  induction bills with
  | nil => intro acc; simp
  | cons b bs ih =>
    intro acc
    rw [List.foldl_cons, ih, List.map_cons, List.sum_cons]
    ring

/-- Isolating one week's contribution from the flattened per-week outputs:
if the weeks are pairwise disjoint and `(w, wwe)` is one of them, filtering
all bills by "starts within `[w, wwe]`" leaves exactly that week's bills so
filtered. -/
theorem filter_flatten_isolate (em : ℕ → Option TimeEntry) (dr : ℚ) (w wwe : ℕ) :
    ∀ L : List (ℕ × ℕ), List.Pairwise (fun p q => p.2 < q.1) L →
      (∀ p ∈ L, p.1 ≤ p.2) → (w, wwe) ∈ L →
      ((L.map (fun p => processWeek em dr p.1 p.2)).flatten).filter
          (fun b => w ≤ b.start_date && b.start_date ≤ wwe) =
        (processWeek em dr w wwe).filter
          (fun b => w ≤ b.start_date && b.start_date ≤ wwe) := by
  intro L
  induction L with
  | nil => intro _ _ h; cases h
  | cons p ps ih =>
    intro hpw hok hmem
    have hcons := List.pairwise_cons.1 hpw
    rw [List.map_cons, List.flatten_cons, List.filter_append]
    rcases List.mem_cons.1 hmem with heq | hmem'
    · rw [← heq]
      have htail : ((ps.map (fun p => processWeek em dr p.1 p.2)).flatten).filter
          (fun b => w ≤ b.start_date && b.start_date ≤ wwe) = [] := by
        rw [List.filter_eq_nil_iff]
        intro b hb
        obtain ⟨l, ⟨q, hq, rfl⟩, hbq⟩ := by
          simpa only [List.mem_flatten, List.mem_map] using hb
        have hqw : wwe < q.1 := by
          have := hcons.1 q hq
          rw [← heq] at this
          exact this
        have hbr := processWeek_bill_range em dr q.1 q.2 b hbq
        simp only [Bool.and_eq_true, decide_eq_true_eq, not_and]
        intro _
        omega
      rw [htail, List.append_nil]
    · have hpw' : p.2 < w := by
        have := hcons.1 (w, wwe) hmem'
        exact this
      have hhead : (processWeek em dr p.1 p.2).filter
          (fun b => w ≤ b.start_date && b.start_date ≤ wwe) = [] := by
        rw [List.filter_eq_nil_iff]
        intro b hb
        have hbr := processWeek_bill_range em dr p.1 p.2 b hb
        simp only [Bool.and_eq_true, decide_eq_true_eq, not_and]
        intro h1
        omega
      rw [hhead, List.nil_append]
      exact ih hcons.2 (fun q hq => hok q (List.mem_cons_of_mem p hq)) hmem'

/-! ## The two segmentation copies agree -/

theorem walkDaysPdf_eq (em : ℕ → Option TimeEntry) :
    ∀ ds bills seg, walkDaysPdf em ds bills seg = walkDays em ds bills seg := by
  intro ds
  induction ds with
  | nil => intro bills seg; rfl
  | cons d ds ih =>
    intro bills seg
    rcases seg with _ | s <;> rcases hd : em d with _ | e
    · rw [walkDays_gap_none em d ds bills hd]
      have hpdf : walkDaysPdf em (d :: ds) bills none = walkDaysPdf em ds bills none := by
        simp [walkDaysPdf, hd]
      rw [hpdf]
      exact ih bills none
    · rw [walkDays_entry_open em d ds bills e hd]
      have hpdf : walkDaysPdf em (d :: ds) bills none =
          walkDaysPdf em ds bills (some ⟨e.hourly_rate, e.hours, d, d⟩) := by
        simp [walkDaysPdf, hd]
      rw [hpdf]
      exact ih bills _
    · rw [walkDays_gap_close em d ds bills s hd]
      have hpdf : walkDaysPdf em (d :: ds) bills (some s) =
          walkDaysPdf em ds (bills ++ [s.close]) none := by
        simp [walkDaysPdf, hd]
      rw [hpdf]
      exact ih _ none
    · by_cases hr : e.hourly_rate = s.rate
      · rw [walkDays_entry_extend em d ds bills e s hd hr]
        have hpdf : walkDaysPdf em (d :: ds) bills (some s) =
            walkDaysPdf em ds bills (some ⟨s.rate, s.hours + e.hours, s.seg_start, d⟩) := by
          simp [walkDaysPdf, hd, hr]
        rw [hpdf]
        exact ih bills _
      · rw [walkDays_entry_switch em d ds bills e s hd hr]
        have hpdf : walkDaysPdf em (d :: ds) bills (some s) =
            walkDaysPdf em ds (bills ++ [s.close]) (some ⟨e.hourly_rate, e.hours, d, d⟩) := by
          simp [walkDaysPdf, hd, hr]
        rw [hpdf]
        exact ih _ _

theorem processWeekPdf_eq (em : ℕ → Option TimeEntry) (dr : ℚ) (c we : ℕ) :
    processWeekPdf em dr c we = processWeek em dr c we := by
  unfold processWeekPdf processWeek
  rw [walkDaysPdf_eq]

theorem segmentWeeksPdf_eq (em : ℕ → Option TimeEntry) (dr : ℚ) :
    ∀ fuel c e, segmentWeeksPdf em dr fuel c e = segmentWeeks em dr fuel c e := by
  intro fuel
  induction fuel with
  | zero => intro c e; rfl
  | succ fuel ih =>
    intro c e
    by_cases hce : c ≤ e
    · rw [segmentWeeksPdf, segmentWeeks, if_pos hce, if_pos hce,
        processWeekPdf_eq, ih]
    · rw [segmentWeeksPdf, segmentWeeks, if_neg hce, if_neg hce]

theorem firstSortedEntryPdf_eq :
    ∀ es : List TimeEntry, firstSortedEntryPdf es = firstSortedEntry es := by
  intro es
  induction es with
  | nil => rfl
  | cons e es ih =>
    rw [firstSortedEntryPdf, firstSortedEntry, ih]

theorem defaultRatePdf_eq (es : List TimeEntry) :
    defaultRatePdf es = defaultRate es := by
  unfold defaultRatePdf defaultRate
  rw [firstSortedEntryPdf_eq]

/-! ## The claims -/

/-- **C1**, counterexample to the claim as stated.  The claim asserts that
the union of the day-ranges of the returned LineItems exactly equals
`[start_date, end_date]` with no gaps.  With the range `[0, 6]` (one
Monday-Sunday week) and a single entry on the Sunday (day `6`), the
segmentation returns the single bill `[6, 6]`: day `0` lies in the
requested range but is covered by no LineItem. -/
theorem C1_counterexample :
    segmentBills 0 6 [⟨6, 8, 100⟩] = [⟨100, 8, 6, 6⟩] ∧
    ¬ ∃ b ∈ segmentBills 0 6 [⟨6, 8, 100⟩], b.start_date ≤ 0 ∧ 0 ≤ b.end_date := by
  have h : segmentBills 0 6 [⟨6, 8, 100⟩] = [⟨100, 8, 6, 6⟩] := by
    norm_num [segmentBills, segmentWeeks, processWeek, walkDays, daysFromTo, entryMap,
      defaultRate, firstSortedEntry, Seg.close, List.range_succ]
  refine ⟨h, ?_⟩
  rw [h]
  rintro ⟨b, hb, hb0, _⟩
  have hb' : b = ⟨100, 8, 6, 6⟩ := by simpa using hb
  subst hb'
  simp at hb0

/-- **C1** (amended).  Every returned LineItem's day-range is contained in
`[start_date, end_date]`, and every in-range day that has an entry is
covered by some LineItem; the union can however be a strict subset of the
range (gap days of a week whose last day has an entry are uncovered, see
the counterexample) and LineItems can overlap (see the C7 counterexample). -/
theorem C1_coverage (startDt endDt d : ℕ) (es : List TimeEntry) :
    (∀ b ∈ segmentBills startDt endDt es,
      startDt ≤ b.start_date ∧ b.start_date ≤ b.end_date ∧ b.end_date ≤ endDt) ∧
    (startDt ≤ d → d ≤ endDt → ∀ e, entryMap es d = some e →
      ∃ b ∈ segmentBills startDt endDt es,
        b.start_date ≤ d ∧ d ≤ b.end_date) := by
  constructor
  · intro b hb
    obtain ⟨p, hp, hbp⟩ := (mem_segmentBills startDt endDt es b).1 hb
    have hw := walkWeeks_mem _ _ _ p hp
    have hr := processWeek_bill_range _ _ p.1 p.2 b hbp
    omega
  · intro h1 h2 e he
    obtain ⟨p, hp, hp1, hp2⟩ :=
      walkWeeks_cover (endDt + 1 - startDt) startDt endDt d le_rfl h1 h2
    obtain ⟨w, hwmem, hcov⟩ := processWeek_cover_entry (entryMap es)
      (defaultRate es) p.1 p.2 d e hp1 hp2 he
    exact ⟨w, (mem_segmentBills startDt endDt es w).2 ⟨p, hp, hwmem⟩, hcov⟩

/-- Witness for the amended C1: range `[0, 6]`, one entry on Wednesday
(day `2`); the per-bill bound holds on the first returned bill and day `2`
is covered. -/
theorem C1_witness :
    (0 ≤ (⟨100, 8, 2, 2⟩ : WeekBill).start_date ∧
      (⟨100, 8, 2, 2⟩ : WeekBill).start_date ≤ (⟨100, 8, 2, 2⟩ : WeekBill).end_date ∧
      (⟨100, 8, 2, 2⟩ : WeekBill).end_date ≤ 6) ∧
    ∃ b ∈ segmentBills 0 6 [⟨2, 8, 100⟩], b.start_date ≤ 2 ∧ 2 ≤ b.end_date := by
  have h : segmentBills 0 6 [⟨2, 8, 100⟩] = [⟨100, 8, 2, 2⟩, ⟨100, 0, 0, 6⟩] := by
    norm_num [segmentBills, segmentWeeks, processWeek, walkDays, daysFromTo, entryMap,
      defaultRate, firstSortedEntry, Seg.close, List.range_succ]
  refine ⟨(C1_coverage 0 6 2 [⟨2, 8, 100⟩]).1 ⟨100, 8, 2, 2⟩ (by rw [h]; simp), ?_⟩
  exact (C1_coverage 0 6 2 [⟨2, 8, 100⟩]).2 (by norm_num) (by norm_num)
    ⟨2, 8, 100⟩ rfl

/-- **C2**.  Boundary discipline of the segmentation.
Part 1: two consecutive in-range days of one calendar week both carrying
entries with equal rates (with any hours, including `0`) are covered by one
single LineItem — no boundary is ever placed between them.
Part 2: a gap day splits a run: the day before the gap is the exact end of
some LineItem and the next entry day after it is the exact start of a
different LineItem, even when the rates on both sides are identical. -/
theorem C2_boundaries (startDt endDt d : ℕ) (es : List TimeEntry)
    (e₁ e₂ : TimeEntry) :
    (startDt ≤ d → d + 1 ≤ endDt → d % 7 ≠ 6 →
      entryMap es d = some e₁ → entryMap es (d + 1) = some e₂ →
      e₂.hourly_rate = e₁.hourly_rate →
      ∃ b ∈ segmentBills startDt endDt es,
        b.start_date ≤ d ∧ d + 1 ≤ b.end_date) ∧
    (startDt ≤ d → d + 2 ≤ endDt → d % 7 ≤ 4 →
      entryMap es d = some e₁ → entryMap es (d + 1) = none →
      entryMap es (d + 2) = some e₂ →
      ∃ b₁ ∈ segmentBills startDt endDt es, b₁.end_date = d ∧
        ∃ b₂ ∈ segmentBills startDt endDt es,
          b₂.start_date = d + 2 ∧ b₁ ≠ b₂) := by
  constructor
  · intro h1 h2 h3 hd₁ hd₂ hr
    obtain ⟨p, hp, hp1, hp2⟩ :=
      walkWeeks_cover (endDt + 1 - startDt) startDt endDt d le_rfl h1 (by omega)
    have hw := walkWeeks_mem _ _ _ p hp
    have hd1 : d + 1 ≤ p.2 := by omega
    obtain ⟨w, hwmem, hcov⟩ := processWeek_cover_pair (entryMap es)
      (defaultRate es) p.1 p.2 d e₁ e₂ hp1 hd1 hd₁ hd₂ hr
    exact ⟨w, (mem_segmentBills startDt endDt es w).2 ⟨p, hp, hwmem⟩, hcov⟩
  · intro h1 h2 h3 hd₁ hgap hd₂
    obtain ⟨p, hp, hp1, hp2⟩ :=
      walkWeeks_cover (endDt + 1 - startDt) startDt endDt d le_rfl h1 (by omega)
    have hw := walkWeeks_mem _ _ _ p hp
    have hd2 : d + 2 ≤ p.2 := by omega
    obtain ⟨b₁, hb₁mem, hb₁⟩ := processWeek_close_at_gap (entryMap es)
      (defaultRate es) p.1 p.2 d e₁ hp1 (by omega) hd₁ hgap
    obtain ⟨b₂, hb₂mem, hb₂⟩ := processWeek_open_after_gap (entryMap es)
      (defaultRate es) p.1 p.2 (d + 1) e₂ (by omega) (by omega) hgap hd₂
    have hr₂ := processWeek_bill_range (entryMap es) (defaultRate es) p.1 p.2 b₂ hb₂mem
    refine ⟨b₁, (mem_segmentBills startDt endDt es b₁).2 ⟨p, hp, hb₁mem⟩, hb₁,
      b₂, (mem_segmentBills startDt endDt es b₂).2 ⟨p, hp, hb₂mem⟩, by omega, ?_⟩
    intro hcon
    subst hcon
    omega

/-- Witness for C2: range `[0, 6]`, entries on days `0` (8h), `1` (0h) and
`3` (8h), all at rate `100`.  Days `0` and `1` share a LineItem (the 0-hour
entry extends the segment); the gap at day `2` yields a LineItem ending at
day `1` and a distinct one starting at day `3`. -/
theorem C2_witness :
    (∃ b ∈ segmentBills 0 6 [⟨0, 8, 100⟩, ⟨1, 0, 100⟩, ⟨3, 8, 100⟩],
      b.start_date ≤ 0 ∧ 0 + 1 ≤ b.end_date) ∧
    (∃ b₁ ∈ segmentBills 0 6 [⟨0, 8, 100⟩, ⟨1, 0, 100⟩, ⟨3, 8, 100⟩],
      b₁.end_date = 1 ∧
      ∃ b₂ ∈ segmentBills 0 6 [⟨0, 8, 100⟩, ⟨1, 0, 100⟩, ⟨3, 8, 100⟩],
        b₂.start_date = 1 + 2 ∧ b₁ ≠ b₂) :=
  ⟨(C2_boundaries 0 6 0 [⟨0, 8, 100⟩, ⟨1, 0, 100⟩, ⟨3, 8, 100⟩] ⟨0, 8, 100⟩
      ⟨1, 0, 100⟩).1 (by norm_num) (by norm_num) (by norm_num) rfl rfl rfl,
   (C2_boundaries 0 6 1 [⟨0, 8, 100⟩, ⟨1, 0, 100⟩, ⟨3, 8, 100⟩] ⟨1, 0, 100⟩
      ⟨3, 8, 100⟩).2 (by norm_num) (by norm_num) (by norm_num) rfl rfl rfl⟩

/-- **C3**.  A week `[w, week_end]` of the walk none of whose days has an
entry contributes exactly one LineItem: the zero-quantity bill covering the
whole (clamped) week at the default rate — the rate of the first entry of
the whole input in date order, `0` if there are no entries at all.  The
walk's week cursors are the requested start and every later Monday in
range; `week_end = min end_date (Sunday on or after w)`. -/
theorem C3_empty_week (startDt endDt w : ℕ) (es : List TimeEntry)
    (hw : w = startDt ∨ (startDt < w ∧ w % 7 = 0)) (hwe : w ≤ endDt)
    (hempty : ∀ d, w ≤ d → d ≤ min endDt (w + (6 - w % 7)) →
      entryMap es d = none) :
    (segmentBills startDt endDt es).filter
        (fun b => w ≤ b.start_date && b.start_date ≤ min endDt (w + (6 - w % 7))) =
      [⟨defaultRate es, 0, w, min endDt (w + (6 - w % 7))⟩] := by
  have hmem : (w, min endDt (w + (6 - w % 7))) ∈
      walkWeeks (endDt + 1 - startDt) startDt endDt :=
    walkWeeks_reach _ startDt endDt w le_rfl hw hwe
  have hok : ∀ p ∈ walkWeeks (endDt + 1 - startDt) startDt endDt, p.1 ≤ p.2 :=
    fun p hp => (walkWeeks_mem _ _ _ p hp).2.1
  unfold segmentBills
  rw [segmentWeeks_eq_flatten,
    filter_flatten_isolate (entryMap es) (defaultRate es) w
      (min endDt (w + (6 - w % 7))) _ (walkWeeks_pairwise _ _ _) hok hmem,
    processWeek_empty (entryMap es) (defaultRate es) w
      (min endDt (w + (6 - w % 7))) (by omega) hempty]
  have hle : w ≤ min endDt (w + (6 - w % 7)) := by omega
  simp [hle, hwe]

/-- Witness for C3: range `[0, 13]` (two weeks), a single entry on day `0`
at rate `100`; the second week `[7, 13]` is empty and contributes exactly
the zero bill `[7, 13]` at rate `100`. -/
theorem C3_witness :
    (segmentBills 0 13 [⟨0, 8, 100⟩]).filter
        (fun b => 7 ≤ b.start_date && b.start_date ≤ min 13 (7 + (6 - 7 % 7))) =
      [⟨defaultRate [⟨0, 8, 100⟩], 0, 7, min 13 (7 + (6 - 7 % 7))⟩] :=
  C3_empty_week 0 13 7 [⟨0, 8, 100⟩] (Or.inr (by norm_num)) (by norm_num)
    (by
      intro d h1 h2
      unfold entryMap
      have hnil : List.filter (fun e => e.date == d) [(⟨0, 8, 100⟩ : TimeEntry)] = [] := by
        rw [List.filter_eq_nil_iff]
        intro e he
        have he' : e = ⟨0, 8, 100⟩ := by simpa using he
        subst he'
        simp only [beq_iff_eq]
        show ¬ (0 = d)
        omega
      rw [hnil]
      rfl)

/-- **C4**.  With `start_date > end_date` the outer loop never runs, the
bill list stays empty, and `generate_invoice` raises an HTTP 400 error
("No billable hours found in specified range", or "No time entries
provided" when the entry list is empty, which is checked first) before any
document is produced: the spec's `InvalidRangeError`.  No partial output
exists: the result is an error, not a bill list. -/
theorem C4_invalid_range (startDt endDt : ℕ) (es : List TimeEntry)
    (h : endDt < startDt) :
    generate_invoice startDt endDt es =
      Except.error (if es.isEmpty then GenError.noTimeEntries
        else GenError.noBillableHours) := by
  unfold generate_invoice
  by_cases he : es.isEmpty
  · rw [if_pos he, if_pos he]
  · rw [if_neg he, if_neg he]
    simp only [segmentBills_eq_nil startDt endDt es h, List.isEmpty_nil, if_true]

/-- Witness for C4: the inverted range `[5, 3]` with one entry yields the
"no billable hours" error. -/
theorem C4_witness :
    generate_invoice 5 3 [⟨0, 1, 1⟩] = Except.error GenError.noBillableHours := by
  have h := C4_invalid_range 5 3 [⟨0, 1, 1⟩] (by norm_num)
  simpa using h

/-- **C5**, counterexample to the claim as stated.  Entries dated outside
`[start_date, end_date]` are *not* always ignored: the default rate of
zero-quantity bills is taken from the first entry of the whole input set,
in range or not.  The two inputs below have no entries inside the range
`[7, 13]` at all (their only entries are dated day `0`) and hence agree on
every in-range date, yet the outputs differ in the zero bill's rate. -/
theorem C5_counterexample :
    ((daysFromTo 7 13).all fun d =>
      entryMap [⟨0, 8, 100⟩] d == entryMap [⟨0, 8, 200⟩] d) = true ∧
    segmentBills 7 13 [⟨0, 8, 100⟩] ≠ segmentBills 7 13 [⟨0, 8, 200⟩] := by
  constructor
  · rfl
  · have h1 : segmentBills 7 13 [⟨0, 8, 100⟩] = [⟨100, 0, 7, 13⟩] := by
      norm_num [segmentBills, segmentWeeks, processWeek, walkDays, daysFromTo, entryMap,
        defaultRate, firstSortedEntry, Seg.close, List.range_succ]
    have h2 : segmentBills 7 13 [⟨0, 8, 200⟩] = [⟨200, 0, 7, 13⟩] := by
      norm_num [segmentBills, segmentWeeks, processWeek, walkDays, daysFromTo, entryMap,
        defaultRate, firstSortedEntry, Seg.close, List.range_succ]
    rw [h1, h2]
    intro hcon
    injection hcon with h1 _
    have h100 : (100 : ℚ) = 200 := congrArg WeekBill.hour_rate h1
    norm_num at h100

/-- **C5** (amended).  Two entry lists that agree on every date of
`[start_date, end_date]` *and* have the same first-sorted-entry rate (the
default rate used for zero-quantity bills) produce identical LineItem
sequences; out-of-range entries can thus only influence the output through
that single default rate. -/
theorem C5_out_of_range (startDt endDt : ℕ) (es₁ es₂ : List TimeEntry)
    (hagree : ∀ d, startDt ≤ d → d ≤ endDt → entryMap es₁ d = entryMap es₂ d)
    (hdr : defaultRate es₁ = defaultRate es₂) :
    segmentBills startDt endDt es₁ = segmentBills startDt endDt es₂ := by
  unfold segmentBills
  rw [hdr]
  exact segmentWeeks_congr (entryMap es₁) (entryMap es₂) (defaultRate es₂)
    (endDt + 1 - startDt) startDt endDt hagree

/-- Witness for the amended C5: two inputs sharing the in-range entry on
day `0` and the default rate but with different out-of-range entries
(days `10` and `20`) segment identically over `[0, 6]`. -/
theorem C5_witness :
    segmentBills 0 6 [⟨0, 8, 100⟩, ⟨10, 8, 100⟩] =
      segmentBills 0 6 [⟨0, 8, 100⟩, ⟨20, 5, 100⟩] :=
  C5_out_of_range 0 6 [⟨0, 8, 100⟩, ⟨10, 8, 100⟩] [⟨0, 8, 100⟩, ⟨20, 5, 100⟩]
    (by
      intro d h1 h2
      interval_cases d <;> rfl)
    rfl

/-- **C6**.  In the itemized table, `total_amount` — the running float
accumulator rendered in the final "Total" row (the table's last cell is
`fmtMoney (itemizedTotal bills)` by definition of `itemizedTableCells`) —
equals the sum over all LineItems of `hour_rate × quantity`, and the
amount column of each row is that row's `unit price × quantity`. -/
theorem C6_total_correct (bills : List WeekBill) :
    itemizedTotal bills = ((itemizedRows bills).map (·.amount)).sum ∧
    ∀ r ∈ itemizedRows bills, r.amount = r.unit_price * r.quantity := by
  constructor
  · rw [itemizedTotal, itemizedTotal_go, zero_add, itemizedRows, List.map_map]
    rfl
  · intro r hr
    rw [itemizedRows] at hr
    obtain ⟨b, _, rfl⟩ := List.mem_map.1 hr
    rfl

/-- Witness for C6 on a two-row table. -/
theorem C6_witness :
    itemizedTotal [⟨100, 8, 0, 0⟩, ⟨50, 2, 1, 1⟩] =
      ((itemizedRows [⟨100, 8, 0, 0⟩, ⟨50, 2, 1, 1⟩]).map (·.amount)).sum ∧
    (⟨8, 0, 0, 100, 800⟩ : ItemRow).amount =
      (⟨8, 0, 0, 100, 800⟩ : ItemRow).unit_price *
        (⟨8, 0, 0, 100, 800⟩ : ItemRow).quantity :=
  ⟨(C6_total_correct [⟨100, 8, 0, 0⟩, ⟨50, 2, 1, 1⟩]).1,
   (C6_total_correct [⟨100, 8, 0, 0⟩]).2 ⟨8, 0, 0, 100, 800⟩
     (by norm_num [itemizedRows])⟩

/-- **C7**, counterexample to the claim as stated.  With the range `[0, 6]`
and entries on days `0` and `2` (same rate), the output is
`[[0,0], [2,2], [0,6]]`: the trailing zero-quantity bill (emitted because
the week's last day has no entry) starts before the previous bill ends, so
the LineItems are neither in non-decreasing date order nor non-overlapping. -/
theorem C7_counterexample :
    segmentBills 0 6 [⟨0, 8, 100⟩, ⟨2, 8, 100⟩] =
      [⟨100, 8, 0, 0⟩, ⟨100, 8, 2, 2⟩, ⟨100, 0, 0, 6⟩] ∧
    ¬ List.Pairwise (fun a b => a.end_date < b.start_date)
        (segmentBills 0 6 [⟨0, 8, 100⟩, ⟨2, 8, 100⟩]) := by
  have h : segmentBills 0 6 [⟨0, 8, 100⟩, ⟨2, 8, 100⟩] =
      [⟨100, 8, 0, 0⟩, ⟨100, 8, 2, 2⟩, ⟨100, 0, 0, 6⟩] := by
    norm_num [segmentBills, segmentWeeks, processWeek, walkDays, daysFromTo, entryMap,
      defaultRate, firstSortedEntry, Seg.close, List.range_succ]
  refine ⟨h, ?_⟩
  rw [h]
  intro hp
  have := (List.pairwise_cons.1 hp).1 ⟨100, 0, 0, 6⟩ (by simp)
  simp at this

/-- **C7** (amended).  Every LineItem satisfies `start_date ≤ end_date`,
lies within the requested range, and lies within one calendar week
(`start_date / 7 = end_date / 7` — weeks are the blocks `[7k, 7k+6]` of the
Monday-epoch encoding), so no LineItem spans a Sunday→Monday boundary; but
the output need not be in non-decreasing date order nor non-overlapping
(see the counterexample). -/
theorem C7_invariants (startDt endDt : ℕ) (es : List TimeEntry) :
    ∀ b ∈ segmentBills startDt endDt es,
      b.start_date ≤ b.end_date ∧ startDt ≤ b.start_date ∧
        b.end_date ≤ endDt ∧ b.start_date / 7 = b.end_date / 7 := by
  intro b hb
  obtain ⟨p, hp, hbp⟩ := (mem_segmentBills startDt endDt es b).1 hb
  have hw := walkWeeks_mem _ _ _ p hp
  have hr := processWeek_bill_range _ _ p.1 p.2 b hbp
  omega

/-- Witness for the amended C7 on a concrete bill of a concrete run. -/
theorem C7_witness :
    (⟨100, 8, 2, 2⟩ : WeekBill).start_date ≤ (⟨100, 8, 2, 2⟩ : WeekBill).end_date ∧
    0 ≤ (⟨100, 8, 2, 2⟩ : WeekBill).start_date ∧
    (⟨100, 8, 2, 2⟩ : WeekBill).end_date ≤ 6 ∧
    (⟨100, 8, 2, 2⟩ : WeekBill).start_date / 7 =
      (⟨100, 8, 2, 2⟩ : WeekBill).end_date / 7 :=
  C7_invariants 0 6 [⟨2, 8, 100⟩] ⟨100, 8, 2, 2⟩
    (by
      have h : segmentBills 0 6 [⟨2, 8, 100⟩] = [⟨100, 8, 2, 2⟩, ⟨100, 0, 0, 6⟩] := by
        norm_num [segmentBills, segmentWeeks, processWeek, walkDays, daysFromTo, entryMap,
          defaultRate, firstSortedEntry, Seg.close, List.range_succ]
      rw [h]
      simp)

/-- **C8** (code bug).  Scenario B of the spec: entries Monday-Friday
(days `0`-`4`), 8 hours each, rate `100` except Wednesday (day `2`) at
`150`, range = that week (`[0, 6]`).  The spec requires exactly three
LineItems; the code returns those three *plus* a fourth zero-quantity
LineItem covering the whole week, because its "week had no entries" branch
actually fires whenever no segment is open at the week's end, i.e. whenever
the week's last day (here Sunday, day `6`) is a gap day — contradicting the
source's own comment and §4.1 step 2d of the spec. -/
theorem C8_scenarioB :
    segmentBills 0 6 [⟨0, 8, 100⟩, ⟨1, 8, 100⟩, ⟨2, 8, 150⟩, ⟨3, 8, 100⟩, ⟨4, 8, 100⟩] =
      [⟨100, 16, 0, 1⟩, ⟨150, 8, 2, 2⟩, ⟨100, 16, 3, 4⟩, ⟨100, 0, 0, 6⟩] ∧
    (segmentBills 0 6
      [⟨0, 8, 100⟩, ⟨1, 8, 100⟩, ⟨2, 8, 150⟩, ⟨3, 8, 100⟩, ⟨4, 8, 100⟩]).length ≠ 3 := by
  have h : segmentBills 0 6 [⟨0, 8, 100⟩, ⟨1, 8, 100⟩, ⟨2, 8, 150⟩, ⟨3, 8, 100⟩, ⟨4, 8, 100⟩] =
      [⟨100, 16, 0, 1⟩, ⟨150, 8, 2, 2⟩, ⟨100, 16, 3, 4⟩, ⟨100, 0, 0, 6⟩] := by
    norm_num [segmentBills, segmentWeeks, processWeek, walkDays, daysFromTo, entryMap,
      defaultRate, firstSortedEntry, Seg.close, List.range_succ]
  exact ⟨h, by rw [h]; norm_num⟩

/-- **C9**.  The segmentation inlined in `_generate_invoice_pdf` is
extensionally identical to the one inlined in `generate_invoice`: for every
range and entry list the two produce the same `WeekBill` sequence (the two
code copies are line-for-line duplicates). -/
theorem C9_duplicate_segmentation (startDt endDt : ℕ) (es : List TimeEntry) :
    segmentBillsPdf startDt endDt es = segmentBills startDt endDt es := by
  unfold segmentBillsPdf segmentBills
  rw [segmentWeeksPdf_eq, defaultRatePdf_eq]
  rfl

/-- **C10**.  The date line of the generated document: with an explicit
`invoice_date` the output is independent of the ambient system date (two
runs with the same arguments emit the same text cells) and the Date line
renders exactly the supplied date; with `invoice_date = None` the output
depends on the system date (`datetime.now()`), shown by two runs on the
same explicit arguments but different ambient dates emitting different
cells. -/
theorem C10_invoice_date (corp bill : Address) (bills : List WeekBill)
    (invoiceNumber d today₁ today₂ : ℕ) :
    generatePdfCells corp bill bills invoiceNumber (some d) today₁ =
      generatePdfCells corp bill bills invoiceNumber (some d) today₂ ∧
    (generatePdfCells corp bill bills invoiceNumber (some d) today₁).get? 5 =
      some ("Date: " ++ fmtDate d) ∧
    generatePdfCells ⟨"r", "co", "st", "ci", "s", "z", "p"⟩
        ⟨"r", "co", "st", "ci", "s", "z", "p"⟩ [] 1 none 0 ≠
      generatePdfCells ⟨"r", "co", "st", "ci", "s", "z", "p"⟩
        ⟨"r", "co", "st", "ci", "s", "z", "p"⟩ [] 1 none 1 := by
  refine ⟨rfl, rfl, ?_⟩
  decide
